import Mathlib

/-!
Verification of the `prompt_fab` template combinator library
(`src/prompt_fab/templates.py`).

The library is a bidirectional string templating engine: a template tree
renders structured data to text (`fill`) and parses text back into data
(`match`).  The Python implementation threads a mutable `StringPos`
(string + position) through `_match` calls.  Here the cursor is threaded
explicitly: `_match` becomes a function from (template, string, position)
to an `Except` carrying either a Python exception or a pair
(optional value, final cursor position) — a match failure is the value
`none` together with wherever the mutated cursor ended up, exactly as in
the source, where a failed `_match` returns `None` while `sp.pos` keeps
whatever mutations were performed.

Recursion in the source is unbounded (the `Repeat._match` loop can even
diverge, e.g. on `Repeat(NOTHING, NOTHING)`), so the matcher and filler
take an explicit fuel parameter and are structurally recursive on it;
running out of fuel yields the distinguished outcome `PyErr.diverge`,
which models a computation that does not return.  Every theorem either
quantifies over the fuel or instantiates it with a sufficient concrete
amount.
-/

/-- Python runtime values as they occur in this library: `None`, strings,
integers, booleans, lists, tuples, and string-keyed mappings. -/
inductive Val where
  | null
  | str (s : String)
  | int (i : Int)
  | bool (b : Bool)
  | list (vs : List Val)
  | tuple (vs : List Val)
  | dict (es : List (String × Val))
deriving Repr

mutual

/-- Structural equality of values, modelling Python `==` on the value
shapes this library manipulates (scalar keys and tuples; Python's
cross-type numeric equalities such as `True == 1` do not arise here). -/
def Val.beq : Val → Val → Bool
  | .null, .null => true
  | .str a, .str b => a == b
  | .int a, .int b => a == b
  | .bool a, .bool b => a == b
  | .list as, .list bs => Val.listBeq as bs
  | .tuple as, .tuple bs => Val.listBeq as bs
  | .dict as, .dict bs => Val.entriesBeq as bs
  | _, _ => false

/-- Elementwise equality of value lists. -/
def Val.listBeq : List Val → List Val → Bool
  | [], [] => true
  | a :: as, b :: bs => Val.beq a b && Val.listBeq as bs
  | _, _ => false

/-- Elementwise equality of string-keyed entry lists. -/
def Val.entriesBeq : List (String × Val) → List (String × Val) → Bool
  | [], [] => true
  | (n, a) :: as, (m, b) :: bs => n == m && Val.beq a b && Val.entriesBeq as bs
  | _, _ => false

end

instance : BEq Val := ⟨Val.beq⟩

/-- Python exceptions that can escape the library's code paths, plus
`diverge`, which models a call that never returns (fuel exhaustion). -/
inductive PyErr where
  | attributeError
  | typeError
  | keyError
  | indexError
  | valueError
  | diverge
deriving Repr, DecidableEq

/-! ### Regular expressions

The library compiles each `Pattern`/`Fixed` acceptance pattern with
`re.compile` and matches it anchored at the cursor (`regex.match(s, pos)`).
Only a small regex fragment occurs in this repository: literal
characters, `.`, character classes `[...]`/`[^...]` built from ranges,
and the greedy quantifiers `?` and `+` applied to single-character atoms
(`-?[0-9]+`, `[^\n\.\?\!]+[\.\?\!]?`, ` +`, and literal strings).
For these patterns Python's greedy backtracking search coincides with
greedy maximal munch without backtracking: the quantified atoms are
single characters, each quantifier is either last in its pattern or is
followed by atoms disjoint from it (`-` is not a digit), so a greedy
choice that leads the tail to fail can never be repaired by
backtracking.  The model below therefore implements anchored greedy
maximal-munch matching. -/

/-- A single-character regex atom: a literal character, `.` (any
character except newline), or a character class of ranges, possibly
negated. -/
inductive Atom where
  | lit (c : Char)
  | dot
  | cls (neg : Bool) (ranges : List (Char × Char))
deriving Repr, DecidableEq

/-- One piece of a compiled pattern: an atom, an optional atom (`a?`),
or a greedy repetition (`a+`). -/
inductive Piece where
  | once (a : Atom)
  | opt (a : Atom)
  | plus (a : Atom)
deriving Repr, DecidableEq

/-- Does the atom match the first character of `cs`? -/
def atomMatch (a : Atom) (cs : List Char) : Bool :=
  match cs with
  | [] => false
  | c :: _ =>
    match a with
    | .lit c0 => c = c0
    | .dot => c ≠ '\n'
    | .cls neg ranges => (ranges.any fun r => r.1 ≤ c && c ≤ r.2) != neg

/-- Length of the maximal run of characters at the front of `cs` matching
the atom (greedy `+`/`*` munching). -/
def munch (a : Atom) : List Char → Nat
  | [] => 0
  | c :: cs => if atomMatch a (c :: cs) then munch a cs + 1 else 0

/-- Anchored match of a compiled pattern against `cs`; returns the number
of characters consumed (the length of `group(0)`), or `none` if the
pattern does not match at the front. -/
def rmatchPieces : List Piece → List Char → Option Nat
  | [], _ => some 0
  | .once a :: ps, cs =>
    if atomMatch a cs then (rmatchPieces ps (cs.drop 1)).map (· + 1) else none
  | .opt a :: ps, cs =>
    if atomMatch a cs then (rmatchPieces ps (cs.drop 1)).map (· + 1)
    else rmatchPieces ps cs
  | .plus a :: ps, cs =>
    let n := munch a cs
    if n = 0 then none else (rmatchPieces ps (cs.drop n)).map (· + n)

/-- `regex.match(s, pos=p)` for a compiled pattern: the consumed length
at character position `p`, or `none`. -/
def patMatch (re : List Piece) (s : String) (p : Nat) : Option Nat :=
  rmatchPieces re (s.data.drop p)

/-- The substring of `s` of length `n` starting at character position
`p` (the matched text `m.group(0)`). -/
def takeSub (s : String) (p n : Nat) : String :=
  String.mk ((s.data.drop p).take n)

/-- Is `c` free of regex metacharacter semantics outside a character
class?  Python `re.compile` gives `. ^ $ * + ? { } [ ] \ | ( )` special
meaning in a pattern; of these, only `.` occurs in the literal strings
this library and this development promote to `Fixed`, and `compileChar`
models it.  A literal containing any of the other metacharacters would
get genuine regex semantics (or a compile-time `re.error`) from
`re.compile` and is outside the compiled-literal model, so every
statement about the promotion of an arbitrary literal is guarded by
`litSafe`. -/
def litChar (c : Char) : Bool :=
  !(List.contains ['+', '?', '*', '{', '}', '[', ']', '(', ')', '|', '\\', '^', '$'] c)

/-- Every character of `s` is a plain literal under `re.compile` (with
`.` permitted, since `compileChar` models it): the domain on which
`litPieces` is faithful to `re.compile`. -/
def litSafe (s : String) : Bool :=
  s.data.all litChar

/-- Compilation of one character of a literal string passed to
`re.compile`, valid on `litSafe` strings: `.` becomes the
any-character-but-newline atom, every other metacharacter-free
character is an ordinary literal.  All literals promoted in this
library (`','`, `'\n'`, `'. '`, `'Q: '`, `'No'`, `'Yes'`, …) are
`litSafe`. -/
def compileChar (c : Char) : Piece :=
  if c = '.' then .once .dot else .once (.lit c)

/-- `re.compile` applied to a literal string (the `Fixed` default when no
broader `accepted_pattern` is supplied); faithful to `re.compile` for
`litSafe` literals — see `litChar`. -/
def litPieces (s : String) : List Piece :=
  s.data.map compileChar

/-! ### The template tree

`Tmpl` mirrors the runtime object state of each template class after
`__init__` ran:

* `fixed default accepted` — a `Fixed`, with its compiled acceptance
  pattern;
* `pattern re` — a `Pattern`; the patterns in this repository define no
  capture groups, so `group_idx = 0` and the whole match is surfaced;
* `integer` — an `Integer` (its pattern is always `-?[0-9]+`);
* `append items` — an `Append` over its converted sub-templates;
* `repeatT item delim trailing` — a `Repeat`;
* `numberedList item delim trailing startIdx` — a `NumberedList`: after
  `__init__`, its inherited `item_template` field holds
  `Append(label_template, item_template)`, which is what `item` stores
  here;
* `affix pre content suf` — an `Affix` whose content argument was a
  `Template`;
* `affixRaw pre content suf` — an `Affix` whose content argument was a
  plain string: `Affix.__init__` stores it unconverted;
* `record fields` — a `Record` (ordered field list);
* `option entries` — an `Option` (ordered value/template association,
  modelling dict insertion order). -/
inductive Tmpl where
  | fixed (default : String) (accepted : List Piece)
  | pattern (re : List Piece)
  | integer
  | append (items : List Tmpl)
  | repeatT (item : Tmpl) (delim : Tmpl) (trailing : Bool)
  | numberedList (item : Tmpl) (delim : Tmpl) (trailing : Bool) (startIdx : Int)
  | affix (pre : Tmpl) (content : Tmpl) (suf : Option Tmpl)
  | affixRaw (pre : Tmpl) (content : String) (suf : Option Tmpl)
  | record (fields : List (String × Tmpl))
  | option (entries : List (Val × Tmpl))
deriving Repr

/-- An argument at a `Union[str, Template]` parameter. -/
inductive Arg where
  | s (s : String)
  | t (t : Tmpl)

/-- `str_to_fixed`: promote a string to a `Fixed` (whose acceptance
pattern is the compiled literal), pass a template through unchanged.
(The `ValueError` branch for other argument types cannot arise for
`Arg`.) -/
def str_to_fixed : Arg → Tmpl
  | .t t => t
  | .s s => .fixed s (litPieces s)

/-- `Fixed(default)` with the default acceptance pattern (the literal
itself, compiled). -/
def FixedT (default : String) : Tmpl :=
  .fixed default (litPieces default)

/-- `Fixed(default, accepted_pattern)` with an explicitly supplied
acceptance pattern. -/
def FixedP (default : String) (accepted : List Piece) : Tmpl :=
  .fixed default accepted

/-- `NOTHING = Fixed('')`: matches the empty string anywhere. -/
def NOTHING : Tmpl := FixedT ""

/-- `Append(*item_templates)`: each argument goes through
`str_to_fixed`. -/
def AppendT (items : List Arg) : Tmpl :=
  .append (items.map str_to_fixed)

/-- `Repeat(item_template, delimiter, trailing_delimiter)`: the delimiter
goes through `str_to_fixed`. -/
def RepeatT (item : Tmpl) (delim : Arg) (trailing : Bool) : Tmpl :=
  .repeatT item (str_to_fixed delim) trailing

/-- `NumberedList(label_template, item_template, delimiter,
trailing_delimiter, start_idx)`: `__init__` calls
`super().__init__(Append(label_template, item_template), delimiter)`,
so the stored item template is that `Append`. -/
def NumberedListT (label item : Tmpl) (delim : Arg) (trailing : Bool)
    (startIdx : Int) : Tmpl :=
  .numberedList (.append [label, item]) (str_to_fixed delim) trailing startIdx

/-- `Affix(prefix, content, suffix)`: prefix and suffix are promoted with
`str_to_fixed`, the content argument is stored exactly as passed — a
plain string stays a plain string. -/
def AffixT (pre : Arg) (content : Arg) (suf : Option Arg) : Tmpl :=
  match content with
  | .t t => .affix (str_to_fixed pre) t (suf.map str_to_fixed)
  | .s s => .affixRaw (str_to_fixed pre) s (suf.map str_to_fixed)

/-- `Suffix(content, suffix) = Affix(NOTHING, content, suffix=suffix)`. -/
def SuffixT (content : Arg) (suf : Arg) : Tmpl :=
  AffixT (.t NOTHING) content (some suf)

/-- `Record(**fields)`: each field value goes through `str_to_fixed`;
declaration order is preserved. -/
def RecordT (fields : List (String × Arg)) : Tmpl :=
  .record (fields.map fun f => (f.1, str_to_fixed f.2))

/-- `Option(value_templates)`: each template goes through
`str_to_fixed`; dict insertion order is preserved. -/
def OptT (entries : List (Val × Arg)) : Tmpl :=
  .option (entries.map fun e => (e.1, str_to_fixed e.2))

/-- The compiled pattern `-?[0-9]+` of `Integer`. -/
def intPieces : List Piece :=
  [.opt (.lit '-'), .plus (.cls false [('0', '9')])]

/-- `SENTENCE = Pattern(r'[^\n\.\?\!]+[\.\?\!]?')`. -/
def SENTENCE : Tmpl :=
  .pattern [.plus (.cls true [('\n', '\n'), ('.', '.'), ('?', '?'), ('!', '!')]),
            .opt (.cls false [('.', '.'), ('?', '?'), ('!', '!')])]

/-- `EOL = Fixed('\n')`. -/
def EOL : Tmpl := FixedT "\n"

/-- `SPACE = Fixed(' ', accepted_pattern=r' +')`. -/
def SPACE : Tmpl := FixedP " " [.plus (.lit ' ')]

/-- `YES_NO = Option({False: 'No', True: 'Yes'})`. -/
def YES_NO : Tmpl := OptT [(.bool false, .s "No"), (.bool true, .s "Yes")]

/-- `NUM = Integer()`. -/
def NUM : Tmpl := .integer

/-! ### Shared value plumbing -/

/-- Python `str()` on the scalar values this library stringifies
(`Integer.fill` calls `str(i)`; `NumberedList.fill` calls `map(str, ...)`
on integers).  Python's `str()` is total, but only scalars reach it in
this library; the container cases are modelled as a type error. -/
def pyStr : Val → Except PyErr String
  | .str s => .ok s
  | .int i => .ok (toString i)
  | .bool b => .ok (if b then "True" else "False")
  | .null => .ok "None"
  | _ => .error .typeError

/-- One step of decimal digit accumulation: accept a digit character and
extend the value, reject anything else. -/
def digitStep (acc : Option Nat) (c : Char) : Option Nat :=
  acc.bind fun a =>
    if '0' ≤ c ∧ c ≤ '9' then some (a * 10 + (c.toNat - '0'.toNat)) else none

/-- The numeric value of a nonempty all-digit character list; `none`
(Python `ValueError`) on an empty list or any non-digit character. -/
def digitsVal : List Char → Option Nat
  | [] => none
  | cs => cs.foldl digitStep (some 0)

/-- Python `int(s, base=10)` on the texts that reach it in
`Integer._match`: an optional minus sign followed by decimal digits.
Returns `none` where `int()` would raise (the `except` branch). -/
def pyIntOfStr (s : String) : Option Int :=
  match s.data with
  | [] => none
  | c :: rest =>
    if c = '-' then (digitsVal rest).map fun n => -(n : Int)
    else (digitsVal (c :: rest)).map fun n => (n : Int)

/-- A zero-argument `fill()` call (`self.prefix.fill()`,
`self.delimiter.fill()`, `self.value_templates[val].fill()`): only
`Fixed.fill(*args)` accepts zero arguments; every other template class
declares a required positional parameter, so the call raises
`TypeError`. -/
def fillNoArg : Tmpl → Except PyErr String
  | .fixed d _ => .ok d
  | _ => .error .typeError

/-- The comprehension `[pair[1] for pair in sm]` in
`NumberedList._match`: subscripting a tuple or list of length ≥ 2 takes
its second element; a shorter tuple/list raises `IndexError`, a
non-subscriptable value raises `TypeError`. -/
def listSeconds : List Val → Except PyErr (List Val)
  | [] => .ok []
  | .tuple (_ :: x :: _) :: rest => (listSeconds rest).map (x :: ·)
  | .list (_ :: x :: _) :: rest => (listSeconds rest).map (x :: ·)
  | .tuple _ :: _ => .error .indexError
  | .list _ :: _ => .error .indexError
  | _ :: _ => .error .typeError

/-- Dictionary lookup on a string-keyed mapping (`rec.get(f_name)` after
`f_name in rec`). -/
def lookupEntry (es : List (String × Val)) (n : String) : Option Val :=
  (es.find? fun e => e.1 == n).map fun e => e.2

/-- `zip(map(str, range(start_idx, len(values) + start_idx)), values)` in
`NumberedList.fill`: the list of (ordinal string, value) pairs. -/
def ordinalZip (start : Int) (vs : List Val) : List Val :=
  (List.range vs.length).zip vs |>.map fun kv =>
    .tuple [.str (toString (start + (kv.1 : Int))), kv.2]

/-- The result of one `_match` call: a Python exception, or the returned
value (`none` = match failure) together with the final cursor
position. -/
abbrev MRes := Except PyErr (Option Val × Nat)

/-- `Template._match(sp)` with the cursor threaded explicitly: given
fuel, a template, the subject string and the current position, produce
the returned value (or `none` on match failure) and the final cursor
position.  Structure recursion is on the fuel; list-shaped nodes
(`append`, `record`, `option`) recurse through a smaller node of the
same constructor, and the `Repeat` loop recurses through the same
`repeatT` node at the position after a matched delimiter — an inner
result of zero items means the last delimiter turned out to be trailing,
triggering the rollback to the checkpoint recorded before that delimiter
was consumed. -/
def tmatchF : Nat → Tmpl → String → Nat → MRes
  | 0, _, _, _ => .error .diverge
  | fuel + 1, t, s, p =>
    match t with
    | .fixed _ acc =>
      match patMatch acc s p with
      | Option.none => .ok (Option.none, p)
      | some n => .ok (some (.str (takeSub s p n)), p + n)
    | .pattern re =>
      match patMatch re s p with
      | Option.none => .ok (Option.none, p)
      | some n => .ok (some (.str (takeSub s p n)), p + n)
    | .integer =>
      -- revert_pos = sp.pos; s = super()._match(sp); i = int(s, 10)
      -- (int(None) raises TypeError, also caught; the cursor was not
      -- moved in that case, so reverting leaves it at p)
      match patMatch intPieces s p with
      | Option.none => .ok (Option.none, p)
      | some n =>
        match pyIntOfStr (takeSub s p n) with
        | some i => .ok (some (.int i), p + n)
        | Option.none => .ok (Option.none, p)
    | .append [] => .ok (some (.tuple []), p)
    | .append (t0 :: ts) =>
      match tmatchF fuel t0 s p with
      | .error e => .error e
      | .ok (Option.none, p1) => .ok (Option.none, p1)
      | .ok (some m, p1) =>
        match tmatchF fuel (.append ts) s p1 with
        | .error e => .error e
        | .ok (Option.none, p2) => .ok (Option.none, p2)
        | .ok (some (.tuple ms), p2) => .ok (some (.tuple (m :: ms)), p2)
        | .ok (some _, _) => .error .typeError -- unreachable: Append yields tuples
    | .repeatT item delim tr =>
      match tmatchF fuel item s p with
      | .error e => .error e
      | .ok (Option.none, pf) =>
        -- first item attempt failed: loop body never ran, vals = []
        .ok (some (.list []), pf)
      | .ok (some m, p1) =>
        -- vals.append(m); i_revert = sp.pos = p1; attempt delimiter
        match tmatchF fuel delim s p1 with
        | .error e => .error e
        | .ok (Option.none, p2) =>
          -- delimiter failed: break with last_dm = None, no rollback
          .ok (some (.list [m]), p2)
        | .ok (some _, p2) =>
          match tmatchF fuel (.repeatT item delim tr) s p2 with
          | .error e => .error e
          | .ok (some (.list []), pf2) =>
            -- no item followed the delimiter: if trailing delimiters are
            -- not allowed, roll the cursor back to the checkpoint p1
            if tr then .ok (some (.list [m]), pf2)
            else .ok (some (.list [m]), p1)
          | .ok (some (.list ms), e) => .ok (some (.list (m :: ms)), e)
          | .ok (_, _) => .error .typeError -- unreachable: Repeat yields lists
    | .numberedList item delim tr _ =>
      -- sm = super()._match(sp); [pair[1] for pair in sm]
      match tmatchF fuel (.repeatT item delim tr) s p with
      | .error e => .error e
      | .ok (Option.none, p') => .ok (Option.none, p') -- dead branch kept from source
      | .ok (some (.list vs), p') =>
        match listSeconds vs with
        | .error e => .error e
        | .ok xs => .ok (some (.list xs), p')
      | .ok (some _, _) => .error .typeError -- unreachable: Repeat yields lists
    | .affix pre content suf =>
      match tmatchF fuel pre s p with
      | .error e => .error e
      | .ok (Option.none, p1) => .ok (Option.none, p1)
      | .ok (some _, p1) =>
        match tmatchF fuel content s p1 with
        | .error e => .error e
        | .ok (Option.none, p2) => .ok (Option.none, p2)
        | .ok (some cm, p2) =>
          match suf with
          | Option.none => .ok (some cm, p2)
          | some sufT =>
            -- the suffix is attempted, but its result is not checked
            match tmatchF fuel sufT s p2 with
            | .error e => .error e
            | .ok (_, p3) => .ok (some cm, p3)
    | .affixRaw pre _ _ =>
      match tmatchF fuel pre s p with
      | .error e => .error e
      | .ok (Option.none, p1) => .ok (Option.none, p1)
      | .ok (some _, _) =>
        -- self.content._match: a plain string has no _match attribute
        .error .attributeError
    | .record [] => .ok (some (.dict []), p)
    | .record ((n, ft) :: rest) =>
      match tmatchF fuel ft s p with
      | .error e => .error e
      | .ok (Option.none, p1) =>
        -- failed field: omitted from the mapping, matching continues
        tmatchF fuel (.record rest) s p1
      | .ok (some m, p1) =>
        match tmatchF fuel (.record rest) s p1 with
        | .error e => .error e
        | .ok (some (.dict es), p2) => .ok (some (.dict ((n, m) :: es)), p2)
        | .ok (_, _) => .error .typeError -- unreachable: Record yields dicts
    | .option [] => .ok (Option.none, p)
    | .option ((v0, t0) :: rest) =>
      match tmatchF fuel t0 s p with
      | .error e => .error e
      | .ok (some _, p') => .ok (some v0, p')
      | .ok (Option.none, p') => tmatchF fuel (.option rest) s p'

/-- `Template.match(s, pos)`: builds a fresh `StringPos` and returns
`self._match(StringPos(s, pos))` — the value only; the cursor (and with
it the end position) is discarded. -/
def matchT (fuel : Nat) (t : Tmpl) (s : String) (p : Nat) :
    Except PyErr (Option Val) :=
  (tmatchF fuel t s p).map fun r => r.1

/-- `Template.fill(value)` for each node, with the same fuel discipline
as `tmatchF`.  `Append.fill` zips templates with items (truncating at
the shorter list); `Repeat.fill` joins item renderings with the
delimiter's zero-argument fill, appending one more delimiter iff
`trailing_delimiter`; `Record.fill` concatenates the renderings of the
fields present in the mapping; `Option.fill` looks the value up in its
entry list (`KeyError` if absent); `Affix.fill` appends the suffix only
when one is configured and the value is not `None`.  Lists and tuples
are the iterables that occur; `repeatT` delegates a tuple argument to
the list case. -/
def fillF : Nat → Tmpl → Val → Except PyErr String
  | 0, _, _ => .error .diverge
  | fuel + 1, t, v =>
    match t, v with
    | .fixed d _, _ => .ok d
    | .pattern _, .null => .ok ""
    | .pattern _, .str s => .ok s
    | .pattern _, _ => .error .typeError -- a non-string is returned unchanged in
      -- Python and fails only at the enclosing concatenation; unused here
    | .integer, .null => .ok ""
    | .integer, w => pyStr w
    | .append _, .null => .ok ""
    | .append [], .list _ => .ok ""
    | .append [], .tuple _ => .ok ""
    | .append (_ :: _), .list [] => .ok ""
    | .append (_ :: _), .tuple [] => .ok ""
    | .append (t0 :: ts), .list (v0 :: vs) => do
      let a ← fillF fuel t0 v0
      let b ← fillF fuel (.append ts) (.list vs)
      .ok (a ++ b)
    | .append (t0 :: ts), .tuple (v0 :: vs) => do
      let a ← fillF fuel t0 v0
      let b ← fillF fuel (.append ts) (.tuple vs)
      .ok (a ++ b)
    | .append _, _ => .error .typeError
    | .repeatT _ _ _, .null => .ok ""
    | .repeatT _ delim tr, .list [] => do
      let d ← fillNoArg delim
      .ok (if tr then d else "")
    | .repeatT item delim tr, .list [v0] => do
      let d ← fillNoArg delim
      let a ← fillF fuel item v0
      .ok (a ++ if tr then d else "")
    | .repeatT item delim tr, .list (v0 :: v1 :: vs) => do
      let d ← fillNoArg delim
      let a ← fillF fuel item v0
      let b ← fillF fuel (.repeatT item delim tr) (.list (v1 :: vs))
      .ok (a ++ d ++ b)
    | .repeatT item delim tr, .tuple vs =>
      fillF fuel (.repeatT item delim tr) (.list vs)
    | .repeatT _ _ _, _ => .error .typeError
    | .numberedList _ _ _ _, .null => .ok ""
    | .numberedList item delim tr st, .list vs =>
      fillF fuel (.repeatT item delim tr) (.list (ordinalZip st vs))
    | .numberedList item delim tr st, .tuple vs =>
      fillF fuel (.repeatT item delim tr) (.list (ordinalZip st vs))
    | .numberedList _ _ _ _, _ => .error .typeError
    | .affix pre content suf, w => do
      let pf ← fillNoArg pre
      let cf ← fillF fuel content w
      match suf, w with
      | some _, .null => .ok (pf ++ cf)
      | some st, _ => do
        let sf ← fillNoArg st
        .ok (pf ++ cf ++ sf)
      | Option.none, _ => .ok (pf ++ cf)
    | .affixRaw pre _ _, _ => do
      -- prefix.fill() is evaluated first; then the attribute lookup
      -- content.fill on a plain string raises
      let _ ← fillNoArg pre
      .error .attributeError
    | .record _, .null => .ok ""
    | .record [], .dict _ => .ok ""
    | .record ((n, ft) :: rest), .dict rec =>
      match lookupEntry rec n with
      | Option.none => fillF fuel (.record rest) (.dict rec)
      | some rv => do
        let a ← fillF fuel ft rv
        let b ← fillF fuel (.record rest) (.dict rec)
        .ok (a ++ b)
    | .record _, _ => .error .typeError
    | .option _, .null => .ok ""
    | .option [], _ => .error .keyError
    | .option ((k, kt) :: rest), w =>
      if Val.beq k w then fillNoArg kt else fillF fuel (.option rest) w

/-! ### Cursor invariants -/

/-- Injectivity of a successful match result. -/
theorem mres_ok_inj {a m : Option Val} {b e : Nat}
    (h : (Except.ok (a, b) : MRes) = .ok (m, e)) : a = m ∧ b = e := by
  cases h; exact ⟨rfl, rfl⟩

/-- A greedy munch never consumes more characters than are available. -/
theorem munch_le (a : Atom) : ∀ cs : List Char, munch a cs ≤ cs.length := by
  intro cs
  induction cs with
  | nil => simp [munch]
  | cons c cs ih =>
    simp only [munch]
    split
    · simpa using Nat.succ_le_succ ih
    · simp

/-- An anchored regex match never consumes more characters than are
available. -/
theorem rmatchPieces_le :
    ∀ (ps : List Piece) (cs : List Char) (n : Nat),
      rmatchPieces ps cs = some n → n ≤ cs.length := by
  intro ps
  induction ps with
  | nil =>
    intro cs n h
    simp only [rmatchPieces, Option.some.injEq] at h
    omega
  | cons pc ps ih =>
    intro cs n h
    cases pc with
    | once a =>
      simp only [rmatchPieces] at h
      split at h
      · rcases Option.map_eq_some'.mp h with ⟨k, hk, rfl⟩
        have hkle := ih _ _ hk
        cases cs with
        | nil => simp [atomMatch] at *
        | cons c cs' => simp at hkle ⊢; omega
      · exact absurd h (by simp)
    | opt a =>
      simp only [rmatchPieces] at h
      split at h
      · rcases Option.map_eq_some'.mp h with ⟨k, hk, rfl⟩
        have hkle := ih _ _ hk
        cases cs with
        | nil => simp [atomMatch] at *
        | cons c cs' => simp at hkle ⊢; omega
      · exact (ih _ _ h).trans (le_refl _)
    | plus a =>
      simp only [rmatchPieces] at h
      split at h
      · exact absurd h (by simp)
      · rcases Option.map_eq_some'.mp h with ⟨k, hk, rfl⟩
        have hkle := ih _ _ hk
        have hm := munch_le a cs
        simp [List.length_drop] at hkle
        omega
/-- Characters consumed by an anchored pattern match stay inside the
string: if the start position is in range, so is the end position. -/
theorem patMatch_le {re : List Piece} {s : String} {p n : Nat}
    (hp : p ≤ s.length) (h : patMatch re s p = some n) : p + n ≤ s.length := by
  have h1 := rmatchPieces_le re (s.data.drop p) n h
  have h2 : (s.data.drop p).length = s.data.length - p := by simp
  have h3 : s.length = s.data.length := rfl
  omega

/-- The cursor of a `_match` call never ends up before the position it
started at: every rollback target (`Integer`'s `revert_pos`, `Repeat`'s
`i_revert`) is itself at or after the entry position. -/
theorem tmatchF_pos_le :
    ∀ fuel t s p m e, tmatchF fuel t s p = .ok (m, e) → p ≤ e := by
  intro fuel
  induction fuel with
  | zero => intro t s p m e h; exact absurd h (by simp [tmatchF])
  | succ fuel ih =>
    intro t s p m e h
    cases t with
    | fixed d acc =>
      simp only [tmatchF] at h
      split at h
      · obtain ⟨-, he⟩ := mres_ok_inj h; omega
      · obtain ⟨-, he⟩ := mres_ok_inj h; omega
    | pattern re =>
      simp only [tmatchF] at h
      split at h
      · obtain ⟨-, he⟩ := mres_ok_inj h; omega
      · obtain ⟨-, he⟩ := mres_ok_inj h; omega
    | integer =>
      simp only [tmatchF] at h
      split at h
      · obtain ⟨-, he⟩ := mres_ok_inj h; omega
      · split at h
        · obtain ⟨-, he⟩ := mres_ok_inj h; omega
        · obtain ⟨-, he⟩ := mres_ok_inj h; omega
    | append items =>
      cases items with
      | nil =>
        simp only [tmatchF] at h
        obtain ⟨-, he⟩ := mres_ok_inj h; omega
      | cons t0 ts =>
        simp only [tmatchF] at h
        cases h0 : tmatchF fuel t0 s p with
        | error e0 => simp only [h0] at h; exact Except.noConfusion h
        | ok r0 =>
          obtain ⟨m0, p1⟩ := r0
          have hp1 := ih _ _ _ _ _ h0
          cases m0 with
          | none =>
            simp only [h0] at h
            obtain ⟨-, he⟩ := mres_ok_inj h; omega
          | some mv =>
            cases h1 : tmatchF fuel (.append ts) s p1 with
            | error e1 => simp only [h0, h1] at h; exact Except.noConfusion h
            | ok r1 =>
              obtain ⟨m1, p2⟩ := r1
              have hp2 := ih _ _ _ _ _ h1
              cases m1 with
              | none =>
                simp only [h0, h1] at h
                obtain ⟨-, he⟩ := mres_ok_inj h; omega
              | some mw =>
                cases mw with
                | tuple ms =>
                  simp only [h0, h1] at h
                  obtain ⟨-, he⟩ := mres_ok_inj h; omega
                | null => simp only [h0, h1] at h; exact Except.noConfusion h
                | str _ => simp only [h0, h1] at h; exact Except.noConfusion h
                | int _ => simp only [h0, h1] at h; exact Except.noConfusion h
                | bool _ => simp only [h0, h1] at h; exact Except.noConfusion h
                | list _ => simp only [h0, h1] at h; exact Except.noConfusion h
                | dict _ => simp only [h0, h1] at h; exact Except.noConfusion h
    | repeatT item delim tr =>
      simp only [tmatchF] at h
      cases h0 : tmatchF fuel item s p with
      | error e0 => simp only [h0] at h; exact Except.noConfusion h
      | ok r0 =>
        obtain ⟨m0, p1⟩ := r0
        have hp1 := ih _ _ _ _ _ h0
        cases m0 with
        | none =>
          simp only [h0] at h
          obtain ⟨-, he⟩ := mres_ok_inj h; omega
        | some mv =>
          cases h1 : tmatchF fuel delim s p1 with
          | error e1 => simp only [h0, h1] at h; exact Except.noConfusion h
          | ok r1 =>
            obtain ⟨m1, p2⟩ := r1
            have hp2 := ih _ _ _ _ _ h1
            cases m1 with
            | none =>
              simp only [h0, h1] at h
              obtain ⟨-, he⟩ := mres_ok_inj h; omega
            | some dv =>
              cases h2 : tmatchF fuel (.repeatT item delim tr) s p2 with
              | error e2 => simp only [h0, h1, h2] at h; exact Except.noConfusion h
              | ok r2 =>
                obtain ⟨m2, p3⟩ := r2
                have hp3 := ih _ _ _ _ _ h2
                cases m2 with
                | none => simp only [h0, h1, h2] at h; exact Except.noConfusion h
                | some mw =>
                  cases mw with
                  | list ms =>
                    cases ms with
                    | nil =>
                      simp only [h0, h1, h2] at h
                      split at h
                      · obtain ⟨-, he⟩ := mres_ok_inj h; omega
                      · obtain ⟨-, he⟩ := mres_ok_inj h; omega
                    | cons a as =>
                      simp only [h0, h1, h2] at h
                      obtain ⟨-, he⟩ := mres_ok_inj h; omega
                  | null => simp only [h0, h1, h2] at h; exact Except.noConfusion h
                  | str _ => simp only [h0, h1, h2] at h; exact Except.noConfusion h
                  | int _ => simp only [h0, h1, h2] at h; exact Except.noConfusion h
                  | bool _ => simp only [h0, h1, h2] at h; exact Except.noConfusion h
                  | tuple _ => simp only [h0, h1, h2] at h; exact Except.noConfusion h
                  | dict _ => simp only [h0, h1, h2] at h; exact Except.noConfusion h
    | numberedList item delim tr st =>
      simp only [tmatchF] at h
      cases h0 : tmatchF fuel (.repeatT item delim tr) s p with
      | error e0 => simp only [h0] at h; exact Except.noConfusion h
      | ok r0 =>
        obtain ⟨m0, p1⟩ := r0
        have hp1 := ih _ _ _ _ _ h0
        cases m0 with
        | none =>
          simp only [h0] at h
          obtain ⟨-, he⟩ := mres_ok_inj h; omega
        | some mv =>
          cases mv with
          | list vs =>
            cases hs : listSeconds vs with
            | error e1 => simp only [h0, hs] at h; exact Except.noConfusion h
            | ok xs =>
              simp only [h0, hs] at h
              obtain ⟨-, he⟩ := mres_ok_inj h; omega
          | null => simp only [h0] at h; exact Except.noConfusion h
          | str _ => simp only [h0] at h; exact Except.noConfusion h
          | int _ => simp only [h0] at h; exact Except.noConfusion h
          | bool _ => simp only [h0] at h; exact Except.noConfusion h
          | tuple _ => simp only [h0] at h; exact Except.noConfusion h
          | dict _ => simp only [h0] at h; exact Except.noConfusion h
    | affix pre content suf =>
      simp only [tmatchF] at h
      cases h0 : tmatchF fuel pre s p with
      | error e0 => simp only [h0] at h; exact Except.noConfusion h
      | ok r0 =>
        obtain ⟨m0, p1⟩ := r0
        have hp1 := ih _ _ _ _ _ h0
        cases m0 with
        | none =>
          simp only [h0] at h
          obtain ⟨-, he⟩ := mres_ok_inj h; omega
        | some pv =>
          cases h1 : tmatchF fuel content s p1 with
          | error e1 => simp only [h0, h1] at h; exact Except.noConfusion h
          | ok r1 =>
            obtain ⟨m1, p2⟩ := r1
            have hp2 := ih _ _ _ _ _ h1
            cases m1 with
            | none =>
              simp only [h0, h1] at h
              obtain ⟨-, he⟩ := mres_ok_inj h; omega
            | some cv =>
              cases suf with
              | none =>
                simp only [h0, h1] at h
                obtain ⟨-, he⟩ := mres_ok_inj h; omega
              | some sufT =>
                cases h2 : tmatchF fuel sufT s p2 with
                | error e2 => simp only [h0, h1, h2] at h; exact Except.noConfusion h
                | ok r2 =>
                  obtain ⟨m2, p3⟩ := r2
                  have hp3 := ih _ _ _ _ _ h2
                  simp only [h0, h1, h2] at h
                  obtain ⟨-, he⟩ := mres_ok_inj h; omega
    | affixRaw pre content suf =>
      simp only [tmatchF] at h
      cases h0 : tmatchF fuel pre s p with
      | error e0 => simp only [h0] at h; exact Except.noConfusion h
      | ok r0 =>
        obtain ⟨m0, p1⟩ := r0
        have hp1 := ih _ _ _ _ _ h0
        cases m0 with
        | none =>
          simp only [h0] at h
          obtain ⟨-, he⟩ := mres_ok_inj h; omega
        | some pv => simp only [h0] at h; exact Except.noConfusion h
    | record fields =>
      cases fields with
      | nil =>
        simp only [tmatchF] at h
        obtain ⟨-, he⟩ := mres_ok_inj h; omega
      | cons f rest =>
        obtain ⟨nm, ft⟩ := f
        simp only [tmatchF] at h
        cases h0 : tmatchF fuel ft s p with
        | error e0 => simp only [h0] at h; exact Except.noConfusion h
        | ok r0 =>
          obtain ⟨m0, p1⟩ := r0
          have hp1 := ih _ _ _ _ _ h0
          cases m0 with
          | none =>
            simp only [h0] at h
            have := ih _ _ _ _ _ h
            omega
          | some mv =>
            cases h1 : tmatchF fuel (.record rest) s p1 with
            | error e1 => simp only [h0, h1] at h; exact Except.noConfusion h
            | ok r1 =>
              obtain ⟨m1, p2⟩ := r1
              have hp2 := ih _ _ _ _ _ h1
              cases m1 with
              | none => simp only [h0, h1] at h; exact Except.noConfusion h
              | some mw =>
                cases mw with
                | dict es =>
                  simp only [h0, h1] at h
                  obtain ⟨-, he⟩ := mres_ok_inj h; omega
                | null => simp only [h0, h1] at h; exact Except.noConfusion h
                | str _ => simp only [h0, h1] at h; exact Except.noConfusion h
                | int _ => simp only [h0, h1] at h; exact Except.noConfusion h
                | bool _ => simp only [h0, h1] at h; exact Except.noConfusion h
                | list _ => simp only [h0, h1] at h; exact Except.noConfusion h
                | tuple _ => simp only [h0, h1] at h; exact Except.noConfusion h
    | option entries =>
      cases entries with
      | nil =>
        simp only [tmatchF] at h
        obtain ⟨-, he⟩ := mres_ok_inj h; omega
      | cons en rest =>
        obtain ⟨v0, t0⟩ := en
        simp only [tmatchF] at h
        cases h0 : tmatchF fuel t0 s p with
        | error e0 => simp only [h0] at h; exact Except.noConfusion h
        | ok r0 =>
          obtain ⟨m0, p1⟩ := r0
          have hp1 := ih _ _ _ _ _ h0
          cases m0 with
          | none =>
            simp only [h0] at h
            have := ih _ _ _ _ _ h
            omega
          | some mv =>
            simp only [h0] at h
            obtain ⟨-, he⟩ := mres_ok_inj h; omega

/-- The cursor of a `_match` call never leaves the string: if the entry
position is within the input, so is the final position, so a caller can
meaningfully compare it with the input length. -/
theorem tmatchF_le_length :
    ∀ fuel t s p m e, p ≤ s.length → tmatchF fuel t s p = .ok (m, e) →
      e ≤ s.length := by
  intro fuel
  induction fuel with
  | zero => intro t s p m e hp h; exact absurd h (by simp [tmatchF])
  | succ fuel ih =>
    intro t s p m e hp h
    cases t with
    | fixed d acc =>
      simp only [tmatchF] at h
      split at h
      · obtain ⟨-, he⟩ := mres_ok_inj h; omega
      · rename_i n heq
        have := patMatch_le hp heq
        obtain ⟨-, he⟩ := mres_ok_inj h; omega
    | pattern re =>
      simp only [tmatchF] at h
      split at h
      · obtain ⟨-, he⟩ := mres_ok_inj h; omega
      · rename_i n heq
        have := patMatch_le hp heq
        obtain ⟨-, he⟩ := mres_ok_inj h; omega
    | integer =>
      simp only [tmatchF] at h
      split at h
      · obtain ⟨-, he⟩ := mres_ok_inj h; omega
      · rename_i n heq
        have := patMatch_le hp heq
        split at h
        · obtain ⟨-, he⟩ := mres_ok_inj h; omega
        · obtain ⟨-, he⟩ := mres_ok_inj h; omega
    | append items =>
      cases items with
      | nil =>
        simp only [tmatchF] at h
        obtain ⟨-, he⟩ := mres_ok_inj h; omega
      | cons t0 ts =>
        simp only [tmatchF] at h
        cases h0 : tmatchF fuel t0 s p with
        | error e0 => simp only [h0] at h; exact Except.noConfusion h
        | ok r0 =>
          obtain ⟨m0, p1⟩ := r0
          have hp1 := ih _ _ _ _ _ hp h0
          cases m0 with
          | none =>
            simp only [h0] at h
            obtain ⟨-, he⟩ := mres_ok_inj h; omega
          | some mv =>
            cases h1 : tmatchF fuel (.append ts) s p1 with
            | error e1 => simp only [h0, h1] at h; exact Except.noConfusion h
            | ok r1 =>
              obtain ⟨m1, p2⟩ := r1
              have hp2 := ih _ _ _ _ _ hp1 h1
              cases m1 with
              | none =>
                simp only [h0, h1] at h
                obtain ⟨-, he⟩ := mres_ok_inj h; omega
              | some mw =>
                cases mw with
                | tuple ms =>
                  simp only [h0, h1] at h
                  obtain ⟨-, he⟩ := mres_ok_inj h; omega
                | null => simp only [h0, h1] at h; exact Except.noConfusion h
                | str _ => simp only [h0, h1] at h; exact Except.noConfusion h
                | int _ => simp only [h0, h1] at h; exact Except.noConfusion h
                | bool _ => simp only [h0, h1] at h; exact Except.noConfusion h
                | list _ => simp only [h0, h1] at h; exact Except.noConfusion h
                | dict _ => simp only [h0, h1] at h; exact Except.noConfusion h
    | repeatT item delim tr =>
      simp only [tmatchF] at h
      cases h0 : tmatchF fuel item s p with
      | error e0 => simp only [h0] at h; exact Except.noConfusion h
      | ok r0 =>
        obtain ⟨m0, p1⟩ := r0
        have hp1 := ih _ _ _ _ _ hp h0
        cases m0 with
        | none =>
          simp only [h0] at h
          obtain ⟨-, he⟩ := mres_ok_inj h; omega
        | some mv =>
          cases h1 : tmatchF fuel delim s p1 with
          | error e1 => simp only [h0, h1] at h; exact Except.noConfusion h
          | ok r1 =>
            obtain ⟨m1, p2⟩ := r1
            have hp2 := ih _ _ _ _ _ hp1 h1
            cases m1 with
            | none =>
              simp only [h0, h1] at h
              obtain ⟨-, he⟩ := mres_ok_inj h; omega
            | some dv =>
              cases h2 : tmatchF fuel (.repeatT item delim tr) s p2 with
              | error e2 => simp only [h0, h1, h2] at h; exact Except.noConfusion h
              | ok r2 =>
                obtain ⟨m2, p3⟩ := r2
                have hp3 := ih _ _ _ _ _ hp2 h2
                cases m2 with
                | none => simp only [h0, h1, h2] at h; exact Except.noConfusion h
                | some mw =>
                  cases mw with
                  | list ms =>
                    cases ms with
                    | nil =>
                      simp only [h0, h1, h2] at h
                      split at h
                      · obtain ⟨-, he⟩ := mres_ok_inj h; omega
                      · obtain ⟨-, he⟩ := mres_ok_inj h; omega
                    | cons a as =>
                      simp only [h0, h1, h2] at h
                      obtain ⟨-, he⟩ := mres_ok_inj h; omega
                  | null => simp only [h0, h1, h2] at h; exact Except.noConfusion h
                  | str _ => simp only [h0, h1, h2] at h; exact Except.noConfusion h
                  | int _ => simp only [h0, h1, h2] at h; exact Except.noConfusion h
                  | bool _ => simp only [h0, h1, h2] at h; exact Except.noConfusion h
                  | tuple _ => simp only [h0, h1, h2] at h; exact Except.noConfusion h
                  | dict _ => simp only [h0, h1, h2] at h; exact Except.noConfusion h
    | numberedList item delim tr st =>
      simp only [tmatchF] at h
      cases h0 : tmatchF fuel (.repeatT item delim tr) s p with
      | error e0 => simp only [h0] at h; exact Except.noConfusion h
      | ok r0 =>
        obtain ⟨m0, p1⟩ := r0
        have hp1 := ih _ _ _ _ _ hp h0
        cases m0 with
        | none =>
          simp only [h0] at h
          obtain ⟨-, he⟩ := mres_ok_inj h; omega
        | some mv =>
          cases mv with
          | list vs =>
            cases hs : listSeconds vs with
            | error e1 => simp only [h0, hs] at h; exact Except.noConfusion h
            | ok xs =>
              simp only [h0, hs] at h
              obtain ⟨-, he⟩ := mres_ok_inj h; omega
          | null => simp only [h0] at h; exact Except.noConfusion h
          | str _ => simp only [h0] at h; exact Except.noConfusion h
          | int _ => simp only [h0] at h; exact Except.noConfusion h
          | bool _ => simp only [h0] at h; exact Except.noConfusion h
          | tuple _ => simp only [h0] at h; exact Except.noConfusion h
          | dict _ => simp only [h0] at h; exact Except.noConfusion h
    | affix pre content suf =>
      simp only [tmatchF] at h
      cases h0 : tmatchF fuel pre s p with
      | error e0 => simp only [h0] at h; exact Except.noConfusion h
      | ok r0 =>
        obtain ⟨m0, p1⟩ := r0
        have hp1 := ih _ _ _ _ _ hp h0
        cases m0 with
        | none =>
          simp only [h0] at h
          obtain ⟨-, he⟩ := mres_ok_inj h; omega
        | some pv =>
          cases h1 : tmatchF fuel content s p1 with
          | error e1 => simp only [h0, h1] at h; exact Except.noConfusion h
          | ok r1 =>
            obtain ⟨m1, p2⟩ := r1
            have hp2 := ih _ _ _ _ _ hp1 h1
            cases m1 with
            | none =>
              simp only [h0, h1] at h
              obtain ⟨-, he⟩ := mres_ok_inj h; omega
            | some cv =>
              cases suf with
              | none =>
                simp only [h0, h1] at h
                obtain ⟨-, he⟩ := mres_ok_inj h; omega
              | some sufT =>
                cases h2 : tmatchF fuel sufT s p2 with
                | error e2 => simp only [h0, h1, h2] at h; exact Except.noConfusion h
                | ok r2 =>
                  obtain ⟨m2, p3⟩ := r2
                  have hp3 := ih _ _ _ _ _ hp2 h2
                  simp only [h0, h1, h2] at h
                  obtain ⟨-, he⟩ := mres_ok_inj h; omega
    | affixRaw pre content suf =>
      simp only [tmatchF] at h
      cases h0 : tmatchF fuel pre s p with
      | error e0 => simp only [h0] at h; exact Except.noConfusion h
      | ok r0 =>
        obtain ⟨m0, p1⟩ := r0
        have hp1 := ih _ _ _ _ _ hp h0
        cases m0 with
        | none =>
          simp only [h0] at h
          obtain ⟨-, he⟩ := mres_ok_inj h; omega
        | some pv => simp only [h0] at h; exact Except.noConfusion h
    | record fields =>
      cases fields with
      | nil =>
        simp only [tmatchF] at h
        obtain ⟨-, he⟩ := mres_ok_inj h; omega
      | cons f rest =>
        obtain ⟨nm, ft⟩ := f
        simp only [tmatchF] at h
        cases h0 : tmatchF fuel ft s p with
        | error e0 => simp only [h0] at h; exact Except.noConfusion h
        | ok r0 =>
          obtain ⟨m0, p1⟩ := r0
          have hp1 := ih _ _ _ _ _ hp h0
          cases m0 with
          | none =>
            simp only [h0] at h
            exact ih _ _ _ _ _ hp1 h
          | some mv =>
            cases h1 : tmatchF fuel (.record rest) s p1 with
            | error e1 => simp only [h0, h1] at h; exact Except.noConfusion h
            | ok r1 =>
              obtain ⟨m1, p2⟩ := r1
              have hp2 := ih _ _ _ _ _ hp1 h1
              cases m1 with
              | none => simp only [h0, h1] at h; exact Except.noConfusion h
              | some mw =>
                cases mw with
                | dict es =>
                  simp only [h0, h1] at h
                  obtain ⟨-, he⟩ := mres_ok_inj h; omega
                | null => simp only [h0, h1] at h; exact Except.noConfusion h
                | str _ => simp only [h0, h1] at h; exact Except.noConfusion h
                | int _ => simp only [h0, h1] at h; exact Except.noConfusion h
                | bool _ => simp only [h0, h1] at h; exact Except.noConfusion h
                | list _ => simp only [h0, h1] at h; exact Except.noConfusion h
                | tuple _ => simp only [h0, h1] at h; exact Except.noConfusion h
    | option entries =>
      cases entries with
      | nil =>
        simp only [tmatchF] at h
        obtain ⟨-, he⟩ := mres_ok_inj h; omega
      | cons en rest =>
        obtain ⟨v0, t0⟩ := en
        simp only [tmatchF] at h
        cases h0 : tmatchF fuel t0 s p with
        | error e0 => simp only [h0] at h; exact Except.noConfusion h
        | ok r0 =>
          obtain ⟨m0, p1⟩ := r0
          have hp1 := ih _ _ _ _ _ hp h0
          cases m0 with
          | none =>
            simp only [h0] at h
            exact ih _ _ _ _ _ hp1 h
          | some mv =>
            simp only [h0] at h
            obtain ⟨-, he⟩ := mres_ok_inj h; omega

/-! ### Decimal rendering round-trips through decimal parsing

`Integer.fill` renders with Python `str(i)` (modelled by Lean's
`toString`, which like CPython prints an optional minus sign followed by
decimal digits), and `Integer._match` re-parses with `int(_, base=10)`.
The following lemmas show the two are mutually inverse for every
integer. -/

/-- Reference form of the decimal digit expansion produced by
`Nat.toDigitsCore`. -/
def natChars (n : Nat) : List Char :=
  if _h : n < 10 then [Nat.digitChar n]
  else natChars (n / 10) ++ [Nat.digitChar (n % 10)]
decreasing_by exact Nat.div_lt_self (by omega) (by omega)

/-- The digit expansion is never empty. -/
theorem natChars_ne_nil (n : Nat) : natChars n ≠ [] := by
  rw [natChars]
  split
  · simp
  · simp

/-- For single digits, `Nat.digitChar` produces a character in
`'0'..'9'` whose value is recovered by subtracting the code of `'0'`. -/
theorem digitChar_facts :
    ∀ m, m < 10 → (('0' ≤ Nat.digitChar m ∧ Nat.digitChar m ≤ '9') ∧
      (Nat.digitChar m).toNat - '0'.toNat = m) := by decide

/-- Every character of the digit expansion is a decimal digit. -/
theorem natChars_digits (n : Nat) : ∀ c ∈ natChars n, '0' ≤ c ∧ c ≤ '9' := by
  induction n using Nat.strong_induction_on with
  | _ n ih =>
    rw [natChars]
    split
    · intro c hc
      simp only [List.mem_singleton] at hc
      subst hc
      exact (digitChar_facts n (by omega)).1
    · intro c hc
      rcases List.mem_append.mp hc with hc | hc
      · exact ih (n / 10) (Nat.div_lt_self (by omega) (by omega)) c hc
      · simp only [List.mem_singleton] at hc
        subst hc
        exact (digitChar_facts (n % 10) (Nat.mod_lt _ (by omega))).1

/-- With enough fuel, `Nat.toDigitsCore` computes the digit expansion in
front of its accumulator. -/
theorem toDigitsCore_eq_natChars :
    ∀ fuel n acc, n < fuel →
      Nat.toDigitsCore 10 fuel n acc = natChars n ++ acc := by
  intro fuel
  induction fuel with
  | zero => intro n acc h; omega
  | succ fuel ih =>
    intro n acc h
    simp only [Nat.toDigitsCore]
    split
    · rename_i h0
      have hn : n < 10 := by
        rcases Nat.div_eq_zero_iff (by omega) |>.mp h0 with h' | h' <;> omega
      rw [natChars]
      rw [dif_pos hn, Nat.mod_eq_of_lt hn]
      simp
    · rename_i h0
      have hn : ¬ n < 10 := by
        intro hlt
        exact h0 (Nat.div_eq_of_lt hlt)
      have hdiv : n / 10 < n := Nat.div_lt_self (by omega) (by omega)
      rw [ih (n / 10) _ (by omega)]
      conv_rhs => rw [natChars]
      rw [dif_neg hn]
      simp

/-- Folding the digit accumulator over a digit expansion appended to a
running value multiplies by the appropriate power of ten and adds. -/
theorem foldl_digitStep_natChars (n : Nat) :
    ∀ a, (natChars n).foldl digitStep (some a) =
      some (a * 10 ^ (natChars n).length + n) := by
  induction n using Nat.strong_induction_on with
  | _ n ih =>
    intro a
    rw [natChars]
    split
    · rename_i hn
      obtain ⟨⟨hd1, hd2⟩, hval⟩ := digitChar_facts n hn
      simp only [List.foldl_cons, List.foldl_nil, digitStep, Option.some_bind]
      rw [if_pos ⟨hd1, hd2⟩, hval]
      simp
    · rename_i hn
      have hdiv : n / 10 < n := Nat.div_lt_self (by omega) (by omega)
      obtain ⟨⟨hd1, hd2⟩, hval⟩ := digitChar_facts (n % 10) (Nat.mod_lt _ (by omega))
      rw [List.foldl_append, ih (n / 10) hdiv a]
      simp only [List.foldl_cons, List.foldl_nil, digitStep, Option.some_bind]
      rw [if_pos ⟨hd1, hd2⟩, hval]
      have hlen : (natChars (n / 10) ++ [Nat.digitChar (n % 10)]).length =
          (natChars (n / 10)).length + 1 := by simp
      rw [hlen]
      have hqr : 10 * (n / 10) + n % 10 = n := Nat.div_add_mod n 10
      have : (a * 10 ^ (natChars (n / 10)).length + n / 10) * 10 + n % 10 =
          a * 10 ^ ((natChars (n / 10)).length + 1) + (10 * (n / 10) + n % 10) := by
        ring
      rw [this, hqr]

/-- Parsing the digit expansion of `n` recovers `n`. -/
theorem digitsVal_natChars (n : Nat) : digitsVal (natChars n) = some n := by
  cases hcs : natChars n with
  | nil => exact absurd hcs (natChars_ne_nil n)
  | cons c cs =>
    have : digitsVal (c :: cs) = (c :: cs).foldl digitStep (some 0) := rfl
    rw [this, ← hcs, foldl_digitStep_natChars n 0]
    simp

/-- The literal `'-'` atom rejects any decimal digit. -/
theorem atomMatch_minus_digit {c : Char} (h : '0' ≤ c) (cs : List Char) :
    atomMatch (.lit '-') (c :: cs) = false := by
  have hc : c ≠ '-' := by
    rintro rfl
    exact absurd h (by decide)
  simp [atomMatch, hc]

/-- The digit character class accepts exactly the decimal digits. -/
theorem atomMatch_digitCls {c : Char} (cs : List Char) :
    atomMatch (.cls false [('0', '9')]) (c :: cs) = true ↔ ('0' ≤ c ∧ c ≤ '9') := by
  simp [atomMatch]

/-- Greedy munching of the digit class consumes an all-digit list
entirely. -/
theorem munch_digits :
    ∀ cs : List Char, (∀ c ∈ cs, '0' ≤ c ∧ c ≤ '9') →
      munch (.cls false [('0', '9')]) cs = cs.length := by
  intro cs
  induction cs with
  | nil => intro _; simp [munch]
  | cons c cs ih =>
    intro hd
    have hc := hd c (by simp)
    have hrest := ih fun x hx => hd x (List.mem_cons_of_mem _ hx)
    rw [munch, if_pos ((atomMatch_digitCls cs).mpr hc), hrest]
    simp
/-- The greedy `[0-9]+` piece alone consumes a whole nonempty all-digit
list. -/
theorem rmatch_plusDigits (c : Char) (cs : List Char)
    (hd : ∀ x ∈ c :: cs, '0' ≤ x ∧ x ≤ '9') :
    rmatchPieces [.plus (.cls false [('0', '9')])] (c :: cs) =
      some (cs.length + 1) := by
  rw [rmatchPieces]
  simp only [munch_digits _ hd, List.length_cons]
  rw [if_neg (by omega)]
  rw [show (c :: cs).drop (cs.length + 1) = [] from by
    rw [show cs.length + 1 = (c :: cs).length from rfl, List.drop_length]]
  simp [rmatchPieces]

/-- The compiled `-?[0-9]+` consumes a whole nonempty all-digit list. -/
theorem rmatch_intPieces_digits (c : Char) (cs : List Char)
    (hd : ∀ x ∈ c :: cs, '0' ≤ x ∧ x ≤ '9') :
    rmatchPieces intPieces (c :: cs) = some (cs.length + 1) := by
  have hc := hd c (by simp)
  show rmatchPieces [.opt (.lit '-'), .plus (.cls false [('0', '9')])] (c :: cs) = _
  rw [rmatchPieces, atomMatch_minus_digit hc.1]
  simp only [Bool.false_eq_true, if_false]
  exact rmatch_plusDigits c cs hd

/-- The compiled `-?[0-9]+` consumes a minus sign followed by a whole
nonempty all-digit list. -/
theorem rmatch_intPieces_minus (c : Char) (cs : List Char)
    (hd : ∀ x ∈ c :: cs, '0' ≤ x ∧ x ≤ '9') :
    rmatchPieces intPieces ('-' :: c :: cs) = some (cs.length + 2) := by
  show rmatchPieces [.opt (.lit '-'), .plus (.cls false [('0', '9')])] _ = _
  rw [rmatchPieces]
  have hm : atomMatch (.lit '-') ('-' :: c :: cs) = true := by simp [atomMatch]
  rw [if_pos hm]
  simp only [List.drop_succ_cons, List.drop_zero]
  rw [rmatch_plusDigits c cs hd]
  simp

/-- A string is its own character data repackaged. -/
theorem string_mk_data (s : String) : String.mk s.data = s := rfl

/-- Appending strings appends their character data. -/
theorem string_data_append (a b : String) : (a ++ b).data = a.data ++ b.data := by
  cases a; cases b; rfl

/-- The decimal representation of a natural number is its digit
expansion. -/
theorem natRepr_data (n : Nat) : (Nat.repr n).data = natChars n := by
  show (Nat.toDigits 10 n).asString.data = natChars n
  rw [Nat.toDigits, toDigitsCore_eq_natChars (n + 1) n [] (by omega)]
  simp [List.asString]

/-- `str(i)` for a nonnegative integer prints the digit expansion. -/
theorem intStr_data_ofNat (n : Nat) :
    (toString (Int.ofNat n)).data = natChars n := by
  show (Nat.repr n).data = natChars n
  exact natRepr_data n

/-- `str(i)` for a negative integer prints a minus sign and the digit
expansion of the magnitude. -/
theorem intStr_data_negSucc (m : Nat) :
    (toString (Int.negSucc m)).data = '-' :: natChars (m + 1) := by
  show ("-" ++ Nat.repr (m + 1)).data = _
  rw [string_data_append, natRepr_data]
  rfl

/-- Parsing `str(i)` with `int(_, base=10)` recovers `i`. -/
theorem pyIntOfStr_toString (i : Int) : pyIntOfStr (toString i) = some i := by
  cases i with
  | ofNat n =>
    rw [pyIntOfStr, intStr_data_ofNat]
    cases hcs : natChars n with
    | nil => exact absurd hcs (natChars_ne_nil n)
    | cons c cs =>
      have hc : '0' ≤ c := by
        have := natChars_digits n c (by rw [hcs]; simp)
        exact this.1
      have hne : ¬ c = '-' := by
        rintro rfl
        exact absurd hc (by decide)
      dsimp only
      rw [if_neg hne, ← hcs, digitsVal_natChars]
      rfl
  | negSucc m =>
    rw [pyIntOfStr, intStr_data_negSucc]
    dsimp only
    rw [if_pos rfl, digitsVal_natChars]
    rfl

/-- The regex of `Integer` consumes all of `str(i)`. -/
theorem patMatch_intPieces_toString (i : Int) :
    patMatch intPieces (toString i) 0 = some (toString i).length := by
  rw [patMatch, List.drop_zero]
  have hlen : (toString i).length = (toString i).data.length := rfl
  cases i with
  | ofNat n =>
    rw [intStr_data_ofNat] at hlen ⊢
    cases hcs : natChars n with
    | nil => exact absurd hcs (natChars_ne_nil n)
    | cons c cs =>
      have hd : ∀ x ∈ c :: cs, '0' ≤ x ∧ x ≤ '9' := by
        intro x hx
        exact natChars_digits n x (by rw [hcs]; exact hx)
      rw [rmatch_intPieces_digits c cs hd, hlen, hcs]
      rfl
  | negSucc m =>
    rw [intStr_data_negSucc] at hlen ⊢
    cases hcs : natChars (m + 1) with
    | nil => exact absurd hcs (natChars_ne_nil (m + 1))
    | cons c cs =>
      have hd : ∀ x ∈ c :: cs, '0' ≤ x ∧ x ≤ '9' := by
        intro x hx
        exact natChars_digits (m + 1) x (by rw [hcs]; exact hx)
      rw [rmatch_intPieces_minus c cs hd, hlen, hcs]
      rfl

/-- A literal pattern, compiled, matches exactly the literal it was
compiled from (the `.` atom compiled from a literal dot accepts the dot
itself). -/
theorem rmatch_litPieces_self :
    ∀ cs : List Char, rmatchPieces (cs.map compileChar) cs = some cs.length := by
  intro cs
  induction cs with
  | nil => rfl
  | cons c cs ih =>
    simp only [List.map_cons, List.length_cons]
    by_cases hc : c = '.'
    · subst hc
      rw [show compileChar '.' = .once .dot from rfl, rmatchPieces]
      rw [if_pos (by simp [atomMatch])]
      simp only [List.drop_succ_cons, List.drop_zero]
      rw [ih]
      rfl
    · rw [show compileChar c = .once (.lit c) from by simp [compileChar, hc], rmatchPieces]
      rw [if_pos (by simp [atomMatch])]
      simp only [List.drop_succ_cons, List.drop_zero]
      rw [ih]
      rfl

/-- `Fixed(s)` (with the default acceptance pattern) fills to `s` and
matches `s` back in full, for every literal `s` on which the compiled
regex really is the literal — i.e. `s` contains no regex metacharacter
other than `.` (`litSafe`).  Outside that domain `re.compile` gives the
default string regex semantics (e.g. `Fixed('a+').match('a+')` consumes
only `'a'`), so the law is stated only on the faithful domain. -/
theorem fixed_round_trip (s : String) (_hs : litSafe s = true) :
    fillF 1 (FixedT s) (.str s) = .ok s ∧
    tmatchF 1 (FixedT s) s 0 = .ok (some (.str s), s.length) := by
  refine ⟨rfl, ?_⟩
  show tmatchF 1 (.fixed s (litPieces s)) s 0 = _
  simp only [tmatchF]
  have hp : patMatch (litPieces s) s 0 = some s.length := by
    rw [patMatch, List.drop_zero, litPieces, rmatch_litPieces_self]
    rfl
  rw [hp]
  have hts : takeSub s 0 s.length = s := by
    rw [takeSub, List.drop_zero,
      show s.length = s.data.length from rfl, List.take_length, string_mk_data]
  dsimp only
  rw [hts, Nat.zero_add]

/-- `Integer` fills `i` to `str(i)` and matches it back in full,
recovering `i`: the round-trip law for every integer. -/
theorem integer_round_trip (i : Int) :
    fillF 1 NUM (.int i) = .ok (toString i) ∧
    tmatchF 1 NUM (toString i) 0 =
      .ok (some (.int i), (toString i).length) := by
  refine ⟨rfl, ?_⟩
  show tmatchF 1 .integer (toString i) 0 = _
  simp only [tmatchF]
  rw [patMatch_intPieces_toString i]
  have hts : takeSub (toString i) 0 (toString i).length = toString i := by
    rw [takeSub, List.drop_zero,
      show (toString i).length = (toString i).data.length from rfl,
      List.take_length, string_mk_data]
  dsimp only
  rw [hts, pyIntOfStr_toString i]
  dsimp only
  rw [Nat.zero_add]

/-! ### Concrete template instances used by the claims -/

/-- A `Pattern` matching one of the characters `a`, `b`: an item
template whose renderings are `"a"` and `"b"`. -/
def abPattern : Tmpl := .pattern [.once (.cls false [('a', 'a'), ('b', 'b')])]

/-- `Repeat(abPattern, ',', trailing_delimiter=False)`. -/
def repNoTrail : Tmpl := RepeatT abPattern (.s ",") false

/-- `Repeat(abPattern, ',', trailing_delimiter=True)`. -/
def repTrail : Tmpl := RepeatT abPattern (.s ",") true

/-- `NumberedList(Suffix(NUM, '. '), SENTENCE, EOL)` with the default
`trailing_delimiter=False` and `start_idx=1`. -/
def numberedScenario : Tmpl :=
  NumberedListT (SuffixT (.t NUM) (.s ". ")) SENTENCE (.t EOL) false 1

/-- `Option({1: 'a', 2: 'ab'})`. -/
def optOneTwo : Tmpl := OptT [(.int 1, .s "a"), (.int 2, .s "ab")]

/-- `Append('a', 'b')` (two fixed sub-templates). -/
def appendAB : Tmpl := AppendT [.s "a", .s "b"]

/-! ### The claims -/

/-- Claim C1, counterexample: the claim says `T.match(s, p)` returns on
success a pair `(value, end_position)`.  In the source,
`Template.match` returns `self._match(StringPos(s, pos))` — the bare
value; the `StringPos` holding the end position is discarded.
Concretely, `Fixed('ab').match('abc')` returns the string `'ab'`, not
the pair `('ab', 2)`. -/
theorem c1_counterexample :
    matchT 5 (FixedT "ab") "abc" 0 = .ok (some (.str "ab")) ∧
    Val.str "ab" ≠ Val.tuple [.str "ab", .int 2] :=
  ⟨rfl, fun hx => Val.noConfusion hx⟩

/-- Claim C1 (amended): `match` returns on success only the matched
value (the end position lives in the internal `StringPos`, exposed here
by `_match`), and on failure the failure value; partial matches are
allowed — success does not require consuming the entire input — and the
final cursor position of `_match` never exceeds the input length, so a
caller with access to it can compare it to the input length. -/
theorem c1_match_value_only :
    (∀ fuel t s p v e, tmatchF fuel t s p = .ok (v, e) →
      matchT fuel t s p = .ok v) ∧
    (∀ fuel t s p m e, p ≤ s.length → tmatchF fuel t s p = .ok (m, e) →
      e ≤ s.length) ∧
    (tmatchF 5 (FixedT "a") "abc" 0 = .ok (some (.str "a"), 1) ∧ (1 : Nat) < 3) := by
  refine ⟨?_, tmatchF_le_length, rfl, by decide⟩
  intro fuel t s p v e h
  rw [matchT, h]
  rfl

/-- Witness for C1: the amended theorem applied to `Fixed('a')` on
`"ab"`. -/
theorem c1_witness :
    matchT 3 (FixedT "a") "ab" 0 = .ok (some (.str "a")) ∧ (1 : Nat) ≤ 2 :=
  ⟨c1_match_value_only.1 3 (FixedT "a") "ab" 0 (some (.str "a")) 1 rfl,
   c1_match_value_only.2.1 3 (FixedT "a") "ab" 0 (some (.str "a")) 1
     (by decide) rfl⟩

/-- Claim C2, counterexample: the claimed round-trip result is the pair
`(v, len(T.fill(v)))`, but `match` returns the bare value: for the
unambiguous rendering `Integer().fill(12) = "12"`, `match` returns `12`
itself, not the pair `(12, 2)`. -/
theorem c2_counterexample :
    matchT 5 NUM "12" 0 = .ok (some (.int 12)) ∧
    Val.int 12 ≠ Val.tuple [.int 12, .int 2] :=
  ⟨rfl, fun hx => Val.noConfusion hx⟩

/-- Claim C2 (amended): at the `_match` level, where the final cursor is
visible, `T._match(T.fill(v), 0)` yields `(v, len(T.fill(v)))` whenever
the rendering is unambiguous; the public `match` returns only the value
component of that result.  Verified for every `Fixed` literal free of
regex metacharacters other than `.` (outside that domain the default
text is compiled as a regex and need not round-trip) at its default
text, for `Integer` at every integer, and for representative `Pattern`
(SENTENCE), `Append`, `Record`, `Option` (YES_NO), and `Repeat`
instances. -/
theorem c2_round_trip :
    (∀ s : String, litSafe s = true →
      fillF 1 (FixedT s) (.str s) = .ok s ∧
      tmatchF 1 (FixedT s) s 0 = .ok (some (.str s), s.length)) ∧
    (∀ i : Int, fillF 1 NUM (.int i) = .ok (toString i) ∧
      tmatchF 1 NUM (toString i) 0 = .ok (some (.int i), (toString i).length)) ∧
    (fillF 2 SENTENCE (.str "Hi.") = .ok "Hi." ∧
      tmatchF 2 SENTENCE "Hi." 0 = .ok (some (.str "Hi."), 3)) ∧
    (fillF 5 (AppendT [.t NUM, .s "!"]) (.tuple [.int 7, .str "!"]) = .ok "7!" ∧
      tmatchF 5 (AppendT [.t NUM, .s "!"]) "7!" 0 =
        .ok (some (.tuple [.int 7, .str "!"]), 2)) ∧
    (fillF 5 (RecordT [("a", .t NUM)]) (.dict [("a", .int 3)]) = .ok "3" ∧
      tmatchF 5 (RecordT [("a", .t NUM)]) "3" 0 =
        .ok (some (.dict [("a", .int 3)]), 1)) ∧
    (fillF 5 YES_NO (.bool true) = .ok "Yes" ∧
      tmatchF 5 YES_NO "Yes" 0 = .ok (some (.bool true), 3)) ∧
    (fillF 5 repNoTrail (.list [.str "a", .str "b"]) = .ok "a,b" ∧
      tmatchF 5 repNoTrail "a,b" 0 = .ok (some (.list [.str "a", .str "b"]), 3)) :=
  ⟨fixed_round_trip, integer_round_trip, ⟨rfl, rfl⟩, ⟨rfl, rfl⟩, ⟨rfl, rfl⟩,
   ⟨rfl, rfl⟩, ⟨rfl, rfl⟩⟩

/-- Witness for C2: the guarded `Fixed` round trip at the
metacharacter-free literal `"Q. "` (which exercises the `.` atom), and
the `Integer` round trip at `-7`. -/
theorem c2_witness :
    (fillF 1 (FixedT "Q. ") (.str "Q. ") = .ok "Q. " ∧
      tmatchF 1 (FixedT "Q. ") "Q. " 0 = .ok (some (.str "Q. "), 3)) ∧
    (fillF 1 NUM (.int (-7)) = .ok (toString (-7 : Int)) ∧
      tmatchF 1 NUM (toString (-7 : Int)) 0 =
        .ok (some (.int (-7)), (toString (-7 : Int)).length)) :=
  ⟨c2_round_trip.1 "Q. " (by decide), c2_round_trip.2.1 (-7)⟩

/-- Claim C3, counterexample: with the default
`trailing_delimiter=False`, `Repeat.fill` only separates items with the
delimiter, so the numbered-list scenario renders without a final
newline — not `"1. First.\n2. Second.\n"` as claimed. -/
theorem c3_counterexample :
    fillF 10 numberedScenario (.list [.str "First.", .str "Second."]) =
      .ok "1. First.\n2. Second." ∧
    ("1. First.\n2. Second." : String) ≠ "1. First.\n2. Second.\n" :=
  ⟨rfl, by decide⟩

/-- Claim C3 (amended): the scenario yields `"1. First.\n2. Second."` —
each item is prefixed by its 1-based ordinal label and items are
separated (not terminated) by newlines, because `trailing_delimiter`
defaults to false. -/
theorem c3_numbered_list_fill :
    fillF 10 numberedScenario (.list [.str "First.", .str "Second."]) =
      .ok "1. First.\n2. Second." := rfl

/-- Claim C4, counterexample: `Append.fill` with too few items does not
raise any error: `Append('a','b').fill((None,))` silently truncates to
the shorter length via `zip` and returns `"a"`. -/
theorem c4_counterexample :
    fillF 5 appendAB (.tuple [.null]) = .ok "a" := rfl

/-- Claim C4 (amended): `Append.fill` with mismatched arity raises no
error at all; `zip` silently truncates to the shorter of the two
lengths: extra sub-templates beyond the items contribute nothing, and
extra items beyond the sub-templates are ignored. -/
theorem c4_append_fill_truncates :
    (∀ fuel (ts : List Tmpl) (vs : List Val), vs.length ≤ ts.length →
      fillF fuel (.append ts) (.tuple vs) =
        fillF fuel (.append (ts.take vs.length)) (.tuple vs)) ∧
    (∀ fuel (ts : List Tmpl) (vs : List Val), ts.length ≤ vs.length →
      fillF fuel (.append ts) (.tuple vs) =
        fillF fuel (.append ts) (.tuple (vs.take ts.length))) := by
  constructor
  · intro fuel
    induction fuel with
    | zero => intro ts vs h; rfl
    | succ fuel ih =>
      intro ts vs h
      cases vs with
      | nil =>
        cases ts with
        | nil => rfl
        | cons t ts => rfl
      | cons v vs =>
        cases ts with
        | nil => simp at h
        | cons t ts =>
          simp only [List.length_cons, List.take_succ_cons]
          simp only [fillF]
          rw [ih ts vs (by simpa using h)]
  · intro fuel
    induction fuel with
    | zero => intro ts vs h; rfl
    | succ fuel ih =>
      intro ts vs h
      cases ts with
      | nil =>
        cases vs with
        | nil => rfl
        | cons v vs => rfl
      | cons t ts =>
        cases vs with
        | nil => simp at h
        | cons v vs =>
          simp only [List.length_cons, List.take_succ_cons]
          simp only [fillF]
          rw [ih ts vs (by simpa using h)]

/-- Witness for C4: truncation on `Append('a','b')` with one item. -/
theorem c4_witness :
    fillF 5 appendAB (.tuple [.null]) =
      fillF 5 (.append [FixedT "a"]) (.tuple [.null]) :=
  c4_append_fill_truncates.1 5 [FixedT "a", FixedT "b"] [.null] (by decide)

/-- Claim C5: the Repeat trailing-delimiter law.  With
`trailing_delimiter=False`, fill joins without a trailing comma, and
matching `"a,b,"` yields `["a","b"]` with the cursor rolled back to
position 3 (the checkpoint recorded before the trailing delimiter was
consumed); with `trailing_delimiter=True`, fill appends one more
comma. -/
theorem c5_repeat_trailing_law :
    fillF 5 repNoTrail (.list [.str "a", .str "b"]) = .ok "a,b" ∧
    tmatchF 8 repNoTrail "a,b," 0 = .ok (some (.list [.str "a", .str "b"]), 3) ∧
    fillF 5 repTrail (.list [.str "a", .str "b"]) = .ok "a,b," :=
  ⟨rfl, rfl, rfl⟩

/-- Claim C6: once the prefix and the content of an `Affix` have
matched, the configured suffix is attempted but its outcome is not
checked: the node returns the content's value, the cursor ends wherever
the suffix attempt left it (advanced past the suffix when it matched),
and a failed `Fixed` suffix — suffixes are `str`/`Fixed` per the
constructor's signature — leaves the cursor exactly where the content
ended. -/
theorem c6_affix_suffix_unchecked :
    (∀ fuel (pre content sufT : Tmpl) (s : String) (p p1 p2 p3 : Nat)
        (pv cv : Val) (sm : Option Val),
      tmatchF fuel pre s p = .ok (some pv, p1) →
      tmatchF fuel content s p1 = .ok (some cv, p2) →
      tmatchF fuel sufT s p2 = .ok (sm, p3) →
      tmatchF (fuel + 1) (.affix pre content (some sufT)) s p =
        .ok (some cv, p3) ∧ p2 ≤ p3) ∧
    (∀ fuel (d : String) (re : List Piece) (s : String) (q q' : Nat),
      tmatchF fuel (.fixed d re) s q = .ok (Option.none, q') → q' = q) := by
  constructor
  · intro fuel pre content sufT s p p1 p2 p3 pv cv sm h1 h2 h3
    refine ⟨?_, tmatchF_pos_le fuel _ s p2 sm p3 h3⟩
    simp only [tmatchF, h1, h2, h3]
  · intro fuel d re s q q' h
    cases fuel with
    | zero => exact absurd h (by simp [tmatchF])
    | succ fuel =>
      simp only [tmatchF] at h
      split at h
      · obtain ⟨-, he⟩ := mres_ok_inj h; omega
      · obtain ⟨hv, -⟩ := mres_ok_inj h; exact absurd hv (by simp)

/-- Witness for C6: `Affix('a', Fixed('b'), 'c')` on `"ab"` — prefix and
content match, the suffix attempt fails at the end of input, the value
is the content's `"b"` and the cursor stays at 2. -/
theorem c6_witness :
    (tmatchF 2 (.affix (FixedT "a") (FixedT "b") (some (FixedT "c"))) "ab" 0 =
      .ok (some (.str "b"), 2) ∧ (2 : Nat) ≤ 2) ∧ (2 : Nat) = 2 :=
  ⟨c6_affix_suffix_unchecked.1 1 (FixedT "a") (FixedT "b") (FixedT "c") "ab"
    0 1 2 2 (.str "a") (.str "b") Option.none rfl rfl rfl,
   c6_affix_suffix_unchecked.2 1 "c" (litPieces "c") "ab" 2 2 rfl⟩

/-- Claim C7: `Record._match` never itself reports failure — whatever
the input and position, a successful return is always a mapping; a field
that fails to match is omitted and matching continues with the remaining
fields at the cursor, as in the concrete instance where field `a`'s
`Fixed('x')` fails on `"a"` and field `b` still matches. -/
theorem c7_record_never_fails :
    (∀ fuel fields s p r e,
      tmatchF fuel (.record fields) s p = .ok (r, e) →
      ∃ es, r = some (.dict es)) ∧
    (tmatchF 5 (RecordT [("a", .s "x"), ("b", .s "a")]) "a" 0 =
      .ok (some (.dict [("b", .str "a")]), 1)) := by
  constructor
  · intro fuel
    induction fuel with
    | zero => intro fields s p r e h; exact absurd h (by simp [tmatchF])
    | succ fuel ih =>
      intro fields s p r e h
      cases fields with
      | nil =>
        simp only [tmatchF] at h
        obtain ⟨hv, -⟩ := mres_ok_inj h
        exact ⟨[], hv.symm⟩
      | cons f rest =>
        obtain ⟨nm, ft⟩ := f
        simp only [tmatchF] at h
        cases h0 : tmatchF fuel ft s p with
        | error e0 => simp only [h0] at h; exact Except.noConfusion h
        | ok r0 =>
          obtain ⟨m0, p1⟩ := r0
          cases m0 with
          | none =>
            simp only [h0] at h
            exact ih rest s p1 r e h
          | some mv =>
            cases h1 : tmatchF fuel (.record rest) s p1 with
            | error e1 => simp only [h0, h1] at h; exact Except.noConfusion h
            | ok r1 =>
              obtain ⟨m1, p2⟩ := r1
              obtain ⟨es, hes⟩ := ih rest s p1 m1 p2 h1
              subst hes
              simp only [h0, h1] at h
              obtain ⟨hv, -⟩ := mres_ok_inj h
              exact ⟨(nm, mv) :: es, hv.symm⟩
  · rfl

/-- Witness for C7: the no-failure law applied to the two-field record
on input `"a"`. -/
theorem c7_witness :
    ∃ es, (some (Val.dict [("b", Val.str "a")]) : Option Val) =
      some (.dict es) :=
  c7_record_never_fails.1 5 [("a", FixedT "x"), ("b", FixedT "a")] "a" 0
    (some (.dict [("b", .str "a")])) 1 rfl

/-- Claim C8: `Option._match` tries the configured value templates in
insertion order and returns the first value whose template matches,
advancing the cursor by that match; in particular
`Option({1: 'a', 2: 'ab'})` on `"ab"` returns `1` consuming exactly one
character even though the later alternative is longer. -/
theorem c8_option_first_match_wins :
    (tmatchF 5 optOneTwo "ab" 0 = .ok (some (.int 1), 1)) ∧
    (∀ fuel (v : Val) (t : Tmpl) (rest : List (Val × Tmpl)) (s : String)
        (p : Nat) (m : Val) (p1 : Nat),
      tmatchF fuel t s p = .ok (some m, p1) →
      tmatchF (fuel + 1) (.option ((v, t) :: rest)) s p = .ok (some v, p1)) := by
  refine ⟨rfl, ?_⟩
  intro fuel v t rest s p m p1 h
  simp only [tmatchF, h]

/-- Witness for C8: first-declared-wins applied to the head entry of
`Option({1: 'a', 2: 'ab'})` on `"ab"`. -/
theorem c8_witness :
    tmatchF 2 (.option [(Val.int 1, FixedT "a"), (Val.int 2, FixedT "ab")])
      "ab" 0 = .ok (some (.int 1), 1) :=
  c8_option_first_match_wins.2 1 (.int 1) (FixedT "a")
    [(Val.int 2, FixedT "ab")] "ab" 0 (.str "a") 1 rfl

/-- Claim C9, counterexample: `Append('a','b')._match` on `"ax"` fails
after its first sub-template consumed one character, and the cursor is
left at position 1 — advanced past the pre-attempt position 0 with no
rollback — contradicting "on failure the cursor is unchanged or
explicitly reverted to a previously recorded checkpoint". -/
theorem c9_counterexample :
    tmatchF 5 appendAB "ax" 0 = .ok (Option.none, 1) ∧ (0 : Nat) ≠ 1 :=
  ⟨rfl, by decide⟩

/-- Claim C9 (amended): the cursor of a `_match` attempt never moves
backward past its pre-attempt position — it is advanced on success, and
on failure it is unchanged, reverted to a recorded checkpoint (`Repeat`,
`Integer`), or left wherever a failing sub-template left it (`Append`,
`Affix` propagate the partially advanced cursor). -/
theorem c9_cursor_never_retreats :
    ∀ fuel t s p m e, tmatchF fuel t s p = .ok (m, e) → p ≤ e :=
  tmatchF_pos_le

/-- Witness for C9: the monotonicity law at `Fixed('a')` on `"ab"`. -/
theorem c9_witness : (0 : Nat) ≤ 1 :=
  c9_cursor_never_retreats 5 (FixedT "a") "ab" 0 (some (.str "a")) 1 rfl

/-- Claim C10, counterexample: an `Affix` whose content is a bare string
does not always raise `AttributeError` from `match`: when the prefix
fails to match, `_match` returns an ordinary failure before the
unconverted content is ever touched — here `Affix('x', 'c')` matched
against `"y"`. -/
theorem c10_counterexample :
    tmatchF 5 (AffixT (.s "x") (.s "c") Option.none) "y" 0 =
      .ok (Option.none, 0) := rfl

/-- Claim C10 (amended): `Affix` promotes prefix and suffix with
`str_to_fixed` but stores a plain-string content unconverted, so with a
bare string as content, `fill` always raises `AttributeError`, and
`match` raises `AttributeError` exactly when the prefix match succeeds —
in particular always for `Suffix`, whose `NOTHING` prefix matches the
empty string anywhere; when the prefix fails, `match` reports a plain
no-match without an exception. -/
theorem c10_raw_content_attribute_error
    (d : String) (re : List Piece) (c sufs : String) (suf : Option Tmpl) :
    (∀ fuel (v : Val), fillF (fuel + 1) (.affixRaw (.fixed d re) c suf) v =
      .error .attributeError) ∧
    (∀ fuel (s : String) (p p1 : Nat) (pv : Val),
      tmatchF fuel (.fixed d re) s p = .ok (some pv, p1) →
      tmatchF (fuel + 1) (.affixRaw (.fixed d re) c suf) s p =
        .error .attributeError) ∧
    (∀ fuel (s : String) (p : Nat),
      tmatchF (fuel + 2) (SuffixT (.s c) (.s sufs)) s p =
        .error .attributeError) := by
  refine ⟨fun fuel v => rfl, ?_, ?_⟩
  · intro fuel s p p1 pv h
    simp only [tmatchF, h]
  · intro fuel s p
    show tmatchF (fuel + 2) (.affixRaw NOTHING c (some (.fixed sufs (litPieces sufs)))) s p = _
    have hpre : tmatchF (fuel + 1) NOTHING s p = .ok (some (.str ""), p) := by
      show tmatchF (fuel + 1) (.fixed "" (litPieces "")) s p = _
      simp only [tmatchF]
      rw [show patMatch (litPieces "") s p = some 0 from rfl]
      rfl
    rw [show tmatchF (fuel + 2)
          (.affixRaw NOTHING c (some (.fixed sufs (litPieces sufs)))) s p =
        (match tmatchF (fuel + 1) NOTHING s p with
          | .error e => .error e
          | .ok (Option.none, p1) => .ok (Option.none, p1)
          | .ok (some _, _) => .error .attributeError : MRes) from rfl, hpre]

/-- Witness for C10: `fill` and (after a successful prefix) `match` on
`Affix('x', 'c')`, and `match` on `Suffix('c', 'z')`, all raise
`AttributeError`. -/
theorem c10_witness :
    fillF 3 (.affixRaw (FixedT "x") "c" Option.none) (Val.str "v") =
      .error .attributeError ∧
    tmatchF 3 (.affixRaw (FixedT "x") "c" Option.none) "xy" 0 =
      .error .attributeError ∧
    tmatchF 3 (SuffixT (.s "c") (.s "z")) "q" 0 = .error .attributeError :=
  ⟨(c10_raw_content_attribute_error "x" (litPieces "x") "c" "z"
      Option.none).1 2 (Val.str "v"),
   (c10_raw_content_attribute_error "x" (litPieces "x") "c" "z"
      Option.none).2.1 2 "xy" 0 1 (.str "x") rfl,
   (c10_raw_content_attribute_error "x" (litPieces "x") "c" "z"
      Option.none).2.2 1 "q" 0⟩
